import Mathlib

/-!
Verification of the schema-normalization core of the `anno` repository
(`src/main.py` and `src/tool.py`).

The Python code manipulates JSON-like trees built from dicts, lists,
strings, numbers and booleans.  We embed those values as the inductive
type `JSON` below; Python dicts are ordered association lists (Python
dicts preserve insertion order and `d[k] = v` keeps the position of an
existing key, which `setKey` mirrors).
-/

namespace Anno

/-- JSON-like values as manipulated by the Python code: dicts, lists,
strings, integers, booleans and `None`. -/
inductive JSON where
  | null : JSON
  | bool (b : Bool) : JSON
  | num (n : Int) : JSON
  | str (s : String) : JSON
  | arr (items : List JSON) : JSON
  | obj (fields : List (String × JSON)) : JSON

mutual

/-- Structural equality test on `JSON` (used to build `DecidableEq`). -/
def jsonBeq : JSON → JSON → Bool
  | JSON.null, JSON.null => true
  | JSON.bool a, JSON.bool b => a == b
  | JSON.num a, JSON.num b => a == b
  | JSON.str a, JSON.str b => a == b
  | JSON.arr xs, JSON.arr ys => jsonBeqItems xs ys
  | JSON.obj fs, JSON.obj gs => jsonBeqFields fs gs
  | _, _ => false

/-- Structural equality test on lists of `JSON`. -/
def jsonBeqItems : List JSON → List JSON → Bool
  | [], [] => true
  | x :: xs, y :: ys => jsonBeq x y && jsonBeqItems xs ys
  | _, _ => false

/-- Structural equality test on association lists of `JSON`. -/
def jsonBeqFields : List (String × JSON) → List (String × JSON) → Bool
  | [], [] => true
  | (k, v) :: fs, (l, w) :: gs => k == l && jsonBeq v w && jsonBeqFields fs gs
  | _, _ => false

end

mutual

theorem jsonBeq_iff : ∀ (a b : JSON), jsonBeq a b = true ↔ a = b
  | JSON.null, b => by cases b <;> simp [jsonBeq]
  | JSON.bool _, b => by cases b <;> simp [jsonBeq]
  | JSON.num _, b => by cases b <;> simp [jsonBeq]
  | JSON.str _, b => by cases b <;> simp [jsonBeq]
  | JSON.arr xs, JSON.arr ys => by simp [jsonBeq, jsonBeqItems_iff xs ys]
  | JSON.arr _, JSON.null => by simp [jsonBeq]
  | JSON.arr _, JSON.bool _ => by simp [jsonBeq]
  | JSON.arr _, JSON.num _ => by simp [jsonBeq]
  | JSON.arr _, JSON.str _ => by simp [jsonBeq]
  | JSON.arr _, JSON.obj _ => by simp [jsonBeq]
  | JSON.obj fs, JSON.obj gs => by simp [jsonBeq, jsonBeqFields_iff fs gs]
  | JSON.obj _, JSON.null => by simp [jsonBeq]
  | JSON.obj _, JSON.bool _ => by simp [jsonBeq]
  | JSON.obj _, JSON.num _ => by simp [jsonBeq]
  | JSON.obj _, JSON.str _ => by simp [jsonBeq]
  | JSON.obj _, JSON.arr _ => by simp [jsonBeq]

theorem jsonBeqItems_iff : ∀ (xs ys : List JSON), jsonBeqItems xs ys = true ↔ xs = ys
  | [], [] => by simp [jsonBeqItems]
  | [], _ :: _ => by simp [jsonBeqItems]
  | _ :: _, [] => by simp [jsonBeqItems]
  | x :: xs, y :: ys => by
      simp [jsonBeqItems, jsonBeq_iff x y, jsonBeqItems_iff xs ys]

theorem jsonBeqFields_iff :
    ∀ (fs gs : List (String × JSON)), jsonBeqFields fs gs = true ↔ fs = gs
  | [], [] => by simp [jsonBeqFields]
  | [], _ :: _ => by simp [jsonBeqFields]
  | _ :: _, [] => by simp [jsonBeqFields]
  | (k, v) :: fs, (l, w) :: gs => by
      simp [jsonBeqFields, jsonBeq_iff v w, jsonBeqFields_iff fs gs, Prod.ext_iff,
        and_assoc]

end

instance : DecidableEq JSON :=
  fun a b => decidable_of_iff (jsonBeq a b = true) (jsonBeq_iff a b)

/-- First-match lookup in an association list; models Python `d.get(k)` /
`d[k]` (Python dict keys are unique, so first match is the match). -/
def lookupKey : List (String × JSON) → String → Option JSON
  | [], _ => none
  | (k, v) :: rest, key => if k = key then some v else lookupKey rest key

/-- Models Python `d[k] = v`: replace the value at an existing key in
place (keeping its position), otherwise append the new binding at the
end (Python dicts append fresh keys in insertion order). -/
def setKey : List (String × JSON) → String → JSON → List (String × JSON)
  | [], key, val => [(key, val)]
  | (k, v) :: rest, key, val =>
      if k = key then (k, val) :: rest else (k, v) :: setKey rest key val

/-- The keys of a dict, in order; models Python `d.keys()`. -/
def keysOf (fields : List (String × JSON)) : List String :=
  fields.map Prod.fst

/-- The key list `["default", "title", "examples", "format", "description"]`
removed by `prune_disallowed_keys` in `src/main.py`. -/
def disallowedKeys : List String :=
  ["default", "title", "examples", "format", "description"]

mutual

/-- Embedding of `prune_disallowed_keys` (`src/main.py`, lines 16-34):
pop each disallowed key from every dict, then recurse into the remaining
dict values and into list items.  The Python function mutates in place;
we return the resulting tree. -/
def prune_disallowed_keys : JSON → JSON
  | JSON.obj fields => JSON.obj (pruneFields fields)
  | JSON.arr items => JSON.arr (pruneItems items)
  | j => j

/-- Dict part of `prune_disallowed_keys`: drop disallowed keys, prune the
surviving values. -/
def pruneFields : List (String × JSON) → List (String × JSON)
  | [] => []
  | (k, v) :: rest =>
      if k ∈ disallowedKeys then pruneFields rest
      else (k, prune_disallowed_keys v) :: pruneFields rest

/-- List part of `prune_disallowed_keys`: prune every item. -/
def pruneItems : List JSON → List JSON
  | [] => []
  | x :: rest => prune_disallowed_keys x :: pruneItems rest

end

/-- Python `for prop_name in props: if prop_name not in required:
required.append(prop_name)` (`src/main.py`, lines 50-52): append each
property name missing from the `required` list.  Python `in` compares
with `==`, which across the JSON value shapes at hand is structural
equality (a `str` never equals a non-`str`). -/
def addMissing (req : List JSON) : List String → List JSON
  | [] => req
  | n :: rest =>
      addMissing (if JSON.str n ∈ req then req else req ++ [JSON.str n]) rest

/-- The keys of a `properties` value: Python `schema.get("properties", {}).keys()`.
Non-dict `properties` values make the Python code raise, so they are outside
the well-formedness assumption `wfSchema` used for every claim about trees. -/
def objKeys : Option JSON → List String
  | some (JSON.obj pfs) => keysOf pfs
  | _ => []

/-- The items of a `required` value: Python `schema.setdefault("required", [])`.
A present non-list `required` makes the Python loop raise or do substring
tests, again outside `wfSchema`. -/
def arrElems : Option JSON → List JSON
  | some (JSON.arr xs) => xs
  | _ => []

mutual

/-- Embedding of `force_strict_mode` (`src/main.py`, lines 37-60).  At a
dict whose `"type"` is `"object"` the Python code sets
`additionalProperties = False`, appends every missing property name to
`required`, and then recurses into all values (so the freshly written
`False` and `required` list are also visited — a no-op on the boolean and
on the appended name strings, and a recursive visit of the pre-existing
`required` items).  We recurse into the original values first
(`forceVals`) and then write the two keys with their already-recursed
values, which produces the identical tree: recursion leaves keys and
positions untouched, fixes strings, and maps the raw `required` items to
their recursed forms — memberships of name strings are unchanged because
recursion sends a string to itself and nothing else to a string.
Property names are read from the raw dict, exactly as Python reads
`props.keys()` before recursing. -/
def force_strict_mode : JSON → JSON
  | JSON.obj fields =>
      let g := forceVals fields
      if lookupKey fields "type" = some (JSON.str "object") then
        let pnames := objKeys (lookupKey fields "properties")
        let req := addMissing (arrElems (lookupKey g "required")) pnames
        JSON.obj (setKey (setKey g "additionalProperties" (JSON.bool false))
          "required" (JSON.arr req))
      else JSON.obj g
  | JSON.arr items => JSON.arr (forceItems items)
  | j => j

/-- Dict part of `force_strict_mode`: recurse into every value. -/
def forceVals : List (String × JSON) → List (String × JSON)
  | [] => []
  | (k, v) :: rest => (k, force_strict_mode v) :: forceVals rest

/-- List part of `force_strict_mode`: recurse into every item. -/
def forceItems : List JSON → List JSON
  | [] => []
  | x :: rest => force_strict_mode x :: forceItems rest

end

/-- The normalization pipeline of `build_strict_openai_schema`
(`src/main.py`, lines 82-83): prune, then force strict mode. -/
def normalize (t : JSON) : JSON :=
  force_strict_mode (prune_disallowed_keys t)

/-- Python `str.strip()` on a character list: drop whitespace from both
ends. -/
def trimChars (cs : List Char) : List Char :=
  ((cs.dropWhile (fun c => c.isWhitespace)).reverse.dropWhile
    (fun c => c.isWhitespace)).reverse

/-- Python `str.strip()`. -/
def strTrim (s : String) : String := String.mk (trimChars s.toList)

/-- Split a character list at every newline.  Applied only to stripped
strings, which end with no newline, where this agrees with Python
`str.splitlines()` (the claims' docstrings use `\n` breaks). -/
def splitAtNewlines : List Char → List (List Char)
  | [] => [[]]
  | c :: rest =>
      let r := splitAtNewlines rest
      if c = '\n' then [] :: r else (c :: r.headI) :: r.tail

/-- Python `" ".join(lines)`. -/
def joinSpace : List String → String
  | [] => ""
  | [s] => s
  | s :: rest => s ++ " " ++ joinSpace rest

/-- Python `line.startswith(":param")`. -/
def startsWithParamTag (line : String) : Bool :=
  match line.toList with
  | ':' :: 'p' :: 'a' :: 'r' :: 'a' :: 'm' :: _ => true
  | _ => false

/-- A word character of the regex `\w` (ASCII range; the docstrings the
claims exercise are ASCII). -/
def isWordChar (c : Char) : Bool := c.isAlphanum || c = '_'

/-- Embedding of `build_strict_openai_schema` (`src/main.py`, lines 63-95).
The pydantic call `param_model.model_json_schema(mode="serialization")` is
external library code; its output is the raw schema tree, which we take
as the `paramSchema` argument and quantify over. -/
def build_strict_openai_schema (funcName funcDescription : String)
    (paramSchema : JSON) : JSON :=
  JSON.obj [("type", JSON.str "function"),
    ("function", JSON.obj [
      ("name", JSON.str funcName),
      ("description", JSON.str funcDescription),
      ("strict", JSON.bool true),
      ("parameters", normalize paramSchema)])]

/-- The description-resolution logic of the `tool` decorator in
`src/main.py` (lines 111-120).  `shortDesc` and `longDesc` stand for
`parsed.short_description or ""` and `parsed.long_description or ""`
produced by the external `docstring_parser` library (for a callable with
no documentation both are the empty string). -/
def resolveDescription (funcName shortDesc longDesc : String) : String :=
  let s := strTrim shortDesc
  let l := strTrim longDesc
  let d := if s ≠ "" ∧ l ≠ "" then s ++ "\n\n" ++ l else if s ≠ "" then s else l
  if d = "" then funcName ++ " (no description)" else d

/-- Embedding of the `tool` decorator of `src/main.py` (lines 102-135):
resolve the description from the parsed docstring, then build the strict
schema attached as `func.tool`. -/
def modelTool (funcName shortDesc longDesc : String) (paramSchema : JSON) : JSON :=
  build_strict_openai_schema funcName (resolveDescription funcName shortDesc longDesc)
    paramSchema

/-! ### The signature-introspecting builder of `src/tool.py` -/

/-- Python type annotations as consumed by `_python_type_to_json_schema`
(`src/tool.py`, lines 59-97).  `union` stands for an annotation the
union check of line 67 recognizes (`typing.Union[...]` / its
`typing.Optional` shorthand, whose `__origin__` is `typing.Union`, in
either declaration order of the members).  `other` stands for any
annotation recognized by none of the checks — including, on the CPython
versions this code runs on, a PEP 604 `X | Y` object, whose repr does
not start with `"typing.Union"` and which has no `__origin__`
attribute, so it falls through to the final table lookup. -/
inductive PyType where
  | str : PyType
  | int : PyType
  | float : PyType
  | bool : PyType
  | noneType : PyType
  | union (args : List PyType) : PyType
  | listOf (elem : PyType) : PyType
  | dictOf (key val : PyType) : PyType
  | other (name : String) : PyType

/-- The mapping table `python_type_to_json_type` (`src/tool.py`, lines
8-13) combined with the use site `python_type_to_json_type.get(py_type,
"string")` (line 97): unrecognized keys fall back to `"string"`.  The
mapper only consults the table after ruling out unions, `NoneType` and
parametrized `list`/`dict`, so the non-table constructors never reach
this lookup with a different outcome than Python's. -/
def python_type_to_json_type : PyType → String
  | PyType.str => "string"
  | PyType.int => "integer"
  | PyType.float => "number"
  | PyType.bool => "boolean"
  | _ => "string"

/-- Models `list(set(types_list))` (`src/tool.py`, line 80) as a
first-occurrence deduplication (each element keeps its first position,
later duplicates disappear).  CPython's `set` iteration order is
unspecified; the element set and the element count — the only facts the
spec lets callers rely on — are faithful. -/
def dedupFirst : List String → List String
  | [] => []
  | s :: rest => s :: (dedupFirst rest).filter (fun t => t ≠ s)

mutual

/-- Embedding of `_python_type_to_json_schema` (`src/tool.py`, lines
59-97): unions map their members recursively, flatten and deduplicate;
`NoneType` maps to `"null"`; parametrized `list`/`dict` map to
`"array"`/`"object"` with no nested detail; everything else goes through
the table with fallback `"string"`.  `Sum.inl` is a single token,
`Sum.inr` a token list (the function returns `str` or `list[str]`). -/
def python_type_to_json_schema : PyType → Sum String (List String)
  | PyType.union args => Sum.inr (dedupFirst (unionTokens args))
  | PyType.noneType => Sum.inl "null"
  | PyType.listOf _ => Sum.inl "array"
  | PyType.dictOf _ _ => Sum.inl "object"
  | t => Sum.inl (python_type_to_json_type t)

/-- The flattening loop over union members (`src/tool.py`, lines 72-78):
a list result is extended into the accumulator, a single token is
appended. -/
def unionTokens : List PyType → List String
  | [] => []
  | a :: rest =>
      (match python_type_to_json_schema a with
       | Sum.inl s => [s]
       | Sum.inr l => l) ++ unionTokens rest

end

/-- Embedding of `re.match(r":param\s+(\w+)\s*:\s*(.*)", line)`
(`src/tool.py`, line 39).  `\w` and `\s` are disjoint and distinct from
`:`, so the greedy maximal-munch reading is exact (no backtracking can
succeed where it fails).  `.*` never meets a newline because the input
is a single line. -/
def matchParamTag (line : String) : Option (String × String) :=
  match line.toList with
  | ':' :: 'p' :: 'a' :: 'r' :: 'a' :: 'm' :: rest =>
      if (rest.takeWhile (fun c => c.isWhitespace)).isEmpty then none
      else
        let afterWs := rest.dropWhile (fun c => c.isWhitespace)
        let nameCs := afterWs.takeWhile isWordChar
        if nameCs.isEmpty then none
        else
          match (afterWs.dropWhile isWordChar).dropWhile (fun c => c.isWhitespace) with
          | ':' :: tail =>
              some (String.mk nameCs, String.mk (tail.dropWhile (fun c => c.isWhitespace)))
          | _ => none
  | _ => none

/-- State of the line loop of `_parse_docstring` (`src/tool.py`, lines
27-52): the `in_params_section` flag, the accumulated description lines
and the parameter-description dict. -/
structure DocState where
  inParams : Bool
  descLines : List String
  params : List (String × String)
deriving DecidableEq

/-- Models `param_descriptions[name] = desc` on a string dict: replace in
place at an existing key, else append. -/
def dictSet : List (String × String) → String → String → List (String × String)
  | [], key, val => [(key, val)]
  | (k, v) :: rest, key, val =>
      if k = key then (k, val) :: rest else (k, v) :: dictSet rest key val

/-- Models `last_param = list(param_descriptions.keys())[-1];
param_descriptions[last_param] += " " + line` (`src/tool.py`, lines
51-52): the dict's keys are unique (they are only ever written through
`dictSet`), so updating the value at the last key is updating the last
entry. -/
def appendLast : List (String × String) → String → List (String × String)
  | [], _ => []
  | [(k, v)], line => [(k, v ++ " " ++ line)]
  | p :: rest, line => p :: appendLast rest line

/-- One iteration of the line loop of `_parse_docstring` (`src/tool.py`,
lines 33-52). -/
def docStep (st : DocState) (line : String) : DocState :=
  if startsWithParamTag line then
    let st1 : DocState := { st with inParams := true }
    match matchParamTag line with
    | some nd => { st1 with params := dictSet st1.params nd.1 nd.2 }
    | none => st1
  else if st.inParams then
    if st.params.isEmpty then st
    else { st with params := appendLast st.params line }
  else { st with descLines := st.descLines ++ [line] }

/-- The whole line loop, starting from the empty state. -/
def runLines (lines : List String) : DocState :=
  lines.foldl docStep ⟨false, [], []⟩

/-- Embedding of `_parse_docstring` (`src/tool.py`, lines 15-56):
`lines = [line.strip() for line in docstring.strip().splitlines()]`,
the state-machine loop, and `" ".join(description_lines)`. -/
def parseDocstring (docstring : String) : String × List (String × String) :=
  if docstring = "" then ("", [])
  else
    let lines := (splitAtNewlines (trimChars docstring.toList)).map
      (fun cs => String.mk (trimChars cs))
    let st := runLines lines
    (joinSpace st.descLines, st.params)

/-- One parameter of the inspected signature, as seen by the `tool`
decorator of `src/tool.py`: its name, its entry in `get_type_hints`
(absent if unannotated) and whether `param.default` is not
`inspect.Parameter.empty`. -/
structure PyParam where
  name : String
  hint : Option PyType
  hasDefault : Bool

/-- The single-token-or-list result turned into the JSON written at the
property's `"type"` key. -/
def jsonOfSchemaType : Sum String (List String) → JSON
  | Sum.inl s => JSON.str s
  | Sum.inr l => JSON.arr (l.map JSON.str)

/-- `param_descriptions.get(param_name, "")`. -/
def dictGet : List (String × String) → String → Option String
  | [], _ => none
  | (k, v) :: rest, key => if k = key then some v else dictGet rest key

/-- One property object of the loop body (`src/tool.py`, lines 121-136):
`{"type": json_type}` plus a `"description"` only when the docstring
gave this parameter a non-empty one. -/
def buildProp (docParams : List (String × String)) (p : PyParam) : JSON :=
  let jt := jsonOfSchemaType (python_type_to_json_schema (p.hint.getD PyType.str))
  let d := (dictGet docParams p.name).getD ""
  if d = "" then JSON.obj [("type", jt)]
  else JSON.obj [("type", jt), ("description", JSON.str d)]

/-- The local variable `required` of the `tool` decorator (`src/tool.py`,
lines 119 and 138-142): the names of the parameters with no default.
Note that the emitted schema does not use it — line 154 writes
`list(properties.keys())` instead. -/
def sigRequiredVar (ps : List PyParam) : List String :=
  (ps.filter (fun p => !p.hasDefault)).map PyParam.name

/-- Embedding of the `tool` decorator of `src/tool.py` (lines 100-164):
parse the docstring, build one property per signature parameter, and
assemble the descriptor stored at `func._tool`, with
`required = list(properties.keys())` and `additionalProperties: False`. -/
def sigTool (funcName docstring : String) (ps : List PyParam) : JSON :=
  let parsed := parseDocstring docstring
  let props := ps.map (fun p => (p.name, buildProp parsed.2 p))
  JSON.obj [("type", JSON.str "function"),
    ("function", JSON.obj [
      ("name", JSON.str funcName),
      ("description", JSON.str parsed.1),
      ("parameters", JSON.obj [
        ("type", JSON.str "object"),
        ("properties", JSON.obj props),
        ("required", JSON.arr (props.map (fun kv => JSON.str kv.1))),
        ("additionalProperties", JSON.bool false)]),
      ("strict", JSON.bool true)])]

/-! ### Predicates over schema trees -/

/-- Shape of a `required` value read by `force_strict_mode`: Python
`setdefault("required", [])` followed by `append` needs a list (a
present non-list either raises `AttributeError` on `append` or turns
the membership test into a substring test). -/
def reqShapeOk : Option JSON → Bool
  | none => true
  | some (JSON.arr _) => true
  | some _ => false

/-- Shape of a `properties` value read by `force_strict_mode`: Python
`props.keys()` needs a dict (`get("properties", {})` supplies one when
absent).  Additionally the dict holding the properties must not itself
carry `"type": "object"`: `force_strict_mode` recurses into every dict
value, including the `properties` container, and would inject
`additionalProperties`/`required` entries into it as if they were
properties — the edge case behind the counterexamples to claims C1 and
C2. -/
def propsShapeOk : Option JSON → Bool
  | none => true
  | some (JSON.obj pfs) => decide (¬ lookupKey pfs "type" = some (JSON.str "object"))
  | some _ => false

/-- Local well-formedness at one dict, checked only where Python reads
the keys: at object-classified dicts. -/
def wfLocal (f : List (String × JSON)) : Bool :=
  if lookupKey f "type" = some (JSON.str "object") then
    reqShapeOk (lookupKey f "required") && propsShapeOk (lookupKey f "properties")
  else true

mutual

/-- Well-formedness of a schema tree, everywhere: dict/list shaped data
whose object nodes carry list-shaped `required` and dict-shaped,
non-object-classified `properties`. -/
def wfSchema : JSON → Bool
  | JSON.obj f => wfLocal f && wfSchemaFields f
  | JSON.arr xs => wfSchemaItems xs
  | _ => true

/-- `wfSchema` on every dict value. -/
def wfSchemaFields : List (String × JSON) → Bool
  | [] => true
  | (_, v) :: rest => wfSchema v && wfSchemaFields rest

/-- `wfSchema` on every list item. -/
def wfSchemaItems : List JSON → Bool
  | [] => true
  | x :: rest => wfSchema x && wfSchemaItems rest

end

/-- The strict-mode condition at one dict: an object-classified dict has
`additionalProperties: false` and every property name in its `required`
list. -/
def strictLocal (f : List (String × JSON)) : Bool :=
  if lookupKey f "type" = some (JSON.str "object") then
    decide (lookupKey f "additionalProperties" = some (JSON.bool false)) &&
    (objKeys (lookupKey f "properties")).all
      (fun n => decide (JSON.str n ∈ arrElems (lookupKey f "required")))
  else true

mutual

/-- The strict-mode condition at every reachable dict of a tree. -/
def strictOk : JSON → Bool
  | JSON.obj f => strictLocal f && strictOkFields f
  | JSON.arr xs => strictOkItems xs
  | _ => true

/-- `strictOk` on every dict value. -/
def strictOkFields : List (String × JSON) → Bool
  | [] => true
  | (_, v) :: rest => strictOk v && strictOkFields rest

/-- `strictOk` on every list item. -/
def strictOkItems : List JSON → Bool
  | [] => true
  | x :: rest => strictOk x && strictOkItems rest

end

/-- No key of the dict belongs to `bad`. -/
def keysAvoidLocal (bad : List String) : List (String × JSON) → Bool
  | [] => true
  | (k, _) :: rest => decide (k ∉ bad) && keysAvoidLocal bad rest

mutual

/-- No dict reachable in the tree (through dict values and list items)
carries a key from `bad`. -/
def keysAvoid (bad : List String) : JSON → Bool
  | JSON.obj f => keysAvoidLocal bad f && keysAvoidFields bad f
  | JSON.arr xs => keysAvoidItems bad xs
  | _ => true

/-- `keysAvoid` on every dict value. -/
def keysAvoidFields (bad : List String) : List (String × JSON) → Bool
  | [] => true
  | (_, v) :: rest => keysAvoid bad v && keysAvoidFields bad rest

/-- `keysAvoid` on every list item. -/
def keysAvoidItems (bad : List String) : List JSON → Bool
  | [] => true
  | x :: rest => keysAvoid bad x && keysAvoidItems bad rest

end

/-! ### Accessors used to state claims about descriptors -/

/-- Field access on a dict-shaped value (`JSON.null` when absent or not
a dict). -/
def getField (t : JSON) (k : String) : JSON :=
  match t with
  | JSON.obj f => (lookupKey f k).getD JSON.null
  | _ => JSON.null

/-- The `function` member of a descriptor. -/
def fnPart (t : JSON) : JSON := getField t "function"

/-- The `function.parameters` member of a descriptor. -/
def paramsPart (t : JSON) : JSON := getField (fnPart t) "parameters"

/-- The items of a list-shaped value. -/
def arrItems : JSON → List JSON
  | JSON.arr xs => xs
  | _ => []

/-- The fields of a dict-shaped value. -/
def objFields : JSON → List (String × JSON)
  | JSON.obj f => f
  | _ => []

/-- The token list of a type-mapper result (a single token becomes a
one-element list). -/
def tokensOf : Sum String (List String) → List String
  | Sum.inl s => [s]
  | Sum.inr l => l

/-- The dict written by `force_strict_mode` at an object-classified dict,
with the recursion into values already performed (see the comment on
`force_strict_mode`). -/
def forcedObjFields (f : List (String × JSON)) : List (String × JSON) :=
  setKey (setKey (forceVals f) "additionalProperties" (JSON.bool false))
    "required" (JSON.arr (addMissing (arrElems (lookupKey (forceVals f) "required"))
      (objKeys (lookupKey f "properties"))))

/-- The claimed (stronger) local condition at one dict: an
object-classified dict has `additionalProperties: false` and its
`required` entries are exactly the names of its properties — each
property name is required and each required entry is the name of some
property. -/
def strictEqLocal (f : List (String × JSON)) : Bool :=
  if lookupKey f "type" = some (JSON.str "object") then
    decide (lookupKey f "additionalProperties" = some (JSON.bool false)) &&
    (objKeys (lookupKey f "properties")).all
      (fun n => decide (JSON.str n ∈ arrElems (lookupKey f "required"))) &&
    (arrElems (lookupKey f "required")).all
      (fun x => match x with
        | JSON.str n => decide (n ∈ objKeys (lookupKey f "properties"))
        | _ => false)
  else true

/-! ### Association-list lemmas -/

theorem lookupKey_setKey_self (f : List (String × JSON)) (k : String) (v : JSON) :
    lookupKey (setKey f k v) k = some v := by
  induction f with
  | nil => simp [setKey, lookupKey]
  | cons kv rest ih =>
      obtain ⟨k', v'⟩ := kv
      by_cases h : k' = k <;> simp [setKey, lookupKey, h, ih]

theorem lookupKey_setKey_ne (f : List (String × JSON)) {k k' : String} (v : JSON)
    (h : k' ≠ k) : lookupKey (setKey f k v) k' = lookupKey f k' := by
  induction f with
  | nil => simp [setKey, lookupKey, Ne.symm h]
  | cons kv rest ih =>
      obtain ⟨k'', v'⟩ := kv
      by_cases h2 : k'' = k
      · subst h2
        simp [setKey, lookupKey, Ne.symm h]
      · simp [setKey, h2, lookupKey, ih]

theorem setKey_eq_self {f : List (String × JSON)} {k : String} {v : JSON}
    (h : lookupKey f k = some v) : setKey f k v = f := by
  induction f with
  | nil => simp [lookupKey] at h
  | cons kv rest ih =>
      obtain ⟨k', v'⟩ := kv
      by_cases h2 : k' = k
      · subst h2
        simp [lookupKey] at h
        simp [setKey, h]
      · simp [lookupKey, h2] at h
        simp [setKey, h2, ih h]

/-! ### Lemmas about `forceVals`, `forceItems` -/

theorem lookupKey_forceVals (f : List (String × JSON)) (k : String) :
    lookupKey (forceVals f) k = (lookupKey f k).map force_strict_mode := by
  induction f with
  | nil => simp [forceVals, lookupKey]
  | cons kv rest ih =>
      obtain ⟨k', v'⟩ := kv
      by_cases h : k' = k <;> simp [forceVals, lookupKey, h, ih]

theorem forceVals_setKey (f : List (String × JSON)) (k : String) (v : JSON) :
    forceVals (setKey f k v) = setKey (forceVals f) k (force_strict_mode v) := by
  induction f with
  | nil => simp [forceVals, setKey]
  | cons kv rest ih =>
      obtain ⟨k', v'⟩ := kv
      by_cases h : k' = k <;> simp [forceVals, setKey, h, ih]

theorem keysOf_forceVals (f : List (String × JSON)) :
    keysOf (forceVals f) = keysOf f := by
  induction f with
  | nil => simp [forceVals]
  | cons kv rest ih =>
      obtain ⟨k', v'⟩ := kv
      simp [forceVals, keysOf] at ih ⊢
      exact ih

theorem forceItems_eq_map (xs : List JSON) :
    forceItems xs = xs.map force_strict_mode := by
  induction xs with
  | nil => simp [forceItems]
  | cons x rest ih => simp [forceItems, ih]

theorem forceVals_eq_map (f : List (String × JSON)) :
    forceVals f = f.map (fun kv => (kv.1, force_strict_mode kv.2)) := by
  induction f with
  | nil => simp [forceVals]
  | cons kv rest ih =>
      obtain ⟨k', v'⟩ := kv
      simp [forceVals, ih]

/-! ### Shape lemmas -/

theorem force_obj_shape (f : List (String × JSON)) :
    ∃ g, force_strict_mode (JSON.obj f) = JSON.obj g := by
  rw [force_strict_mode]
  split <;> exact ⟨_, rfl⟩

theorem force_eq_str_iff (v : JSON) (s : String) :
    force_strict_mode v = JSON.str s ↔ v = JSON.str s := by
  cases v with
  | obj f =>
      obtain ⟨g, hg⟩ := force_obj_shape f
      simp [hg]
  | arr xs => simp [force_strict_mode]
  | null => simp [force_strict_mode]
  | bool b => simp [force_strict_mode]
  | num n => simp [force_strict_mode]
  | str s' => simp [force_strict_mode]

theorem prune_eq_str_iff (v : JSON) (s : String) :
    prune_disallowed_keys v = JSON.str s ↔ v = JSON.str s := by
  cases v <;> simp [prune_disallowed_keys]

theorem lookupKey_pruneFields (f : List (String × JSON)) {k : String}
    (h : k ∉ disallowedKeys) :
    lookupKey (pruneFields f) k = (lookupKey f k).map prune_disallowed_keys := by
  induction f with
  | nil => simp [pruneFields, lookupKey]
  | cons kv rest ih =>
      obtain ⟨k', v'⟩ := kv
      by_cases h3 : k' = k
      · subst h3
        simp [pruneFields, h, lookupKey]
      · by_cases h2 : k' ∈ disallowedKeys <;>
          simp [pruneFields, h2, lookupKey, h3, ih]

/-! ### Lemmas about `addMissing` -/

theorem mem_addMissing_left {x : JSON} {req : List JSON} (names : List String)
    (h : x ∈ req) : x ∈ addMissing req names := by
  induction names generalizing req with
  | nil => simpa [addMissing] using h
  | cons n rest ih =>
      rw [addMissing]
      by_cases h2 : JSON.str n ∈ req
      · simp only [h2, ite_true]
        exact ih h
      · simp only [h2, ite_false]
        exact ih (by simp [h])

theorem str_mem_addMissing {n : String} {names : List String} (req : List JSON)
    (h : n ∈ names) : JSON.str n ∈ addMissing req names := by
  induction names generalizing req with
  | nil => simp at h
  | cons m rest ih =>
      rw [addMissing]
      rcases List.mem_cons.mp h with h | h
      · subst h
        by_cases h2 : JSON.str n ∈ req
        · simp only [h2, ite_true]
          exact mem_addMissing_left rest h2
        · simp only [h2, ite_false]
          exact mem_addMissing_left rest (by simp)
      · by_cases h2 : JSON.str m ∈ req <;> simp only [h2, ite_true, ite_false] <;>
          exact ih _ h

theorem addMissing_eq_self {req : List JSON} {names : List String}
    (h : ∀ n ∈ names, JSON.str n ∈ req) : addMissing req names = req := by
  induction names with
  | nil => simp [addMissing]
  | cons n rest ih =>
      rw [addMissing]
      simp only [h n (by simp), ite_true]
      exact ih fun m hm => h m (by simp [hm])

theorem mem_addMissing_iff {x : JSON} {req : List JSON} {names : List String} :
    x ∈ addMissing req names ↔ x ∈ req ∨ ∃ n ∈ names, x = JSON.str n := by
  induction names generalizing req with
  | nil => simp [addMissing]
  | cons n rest ih =>
      rw [addMissing]
      by_cases h2 : JSON.str n ∈ req
      · simp only [h2, ite_true, ih]
        constructor
        · rintro (h | ⟨m, hm, rfl⟩)
          · exact Or.inl h
          · exact Or.inr ⟨m, by simp [hm], rfl⟩
        · rintro (h | ⟨m, hm, rfl⟩)
          · exact Or.inl h
          · rcases List.mem_cons.mp hm with h | h
            · exact Or.inl (h ▸ h2)
            · exact Or.inr ⟨m, h, rfl⟩
      · simp only [h2, ite_false, ih]
        constructor
        · rintro (h | ⟨m, hm, rfl⟩)
          · rcases List.mem_append.mp h with h | h
            · exact Or.inl h
            · simp at h
              exact Or.inr ⟨n, by simp, h⟩
          · exact Or.inr ⟨m, by simp [hm], rfl⟩
        · rintro (h | ⟨m, hm, rfl⟩)
          · exact Or.inl (by simp [h])
          · rcases List.mem_cons.mp hm with h | h
            · subst h
              exact Or.inl (by simp)
            · exact Or.inr ⟨m, h, rfl⟩

/-! ### Size lemmas for the well-founded inductions -/

theorem sizeOf_lookupKey {f : List (String × JSON)} {k : String} {v : JSON}
    (h : lookupKey f k = some v) : sizeOf v < sizeOf f := by
  induction f with
  | nil => simp [lookupKey] at h
  | cons kv rest ih =>
      obtain ⟨k', v'⟩ := kv
      by_cases h2 : k' = k
      · rw [lookupKey, if_pos h2] at h
        obtain rfl : v' = v := by injection h
        simp only [List.cons.sizeOf_spec, Prod.mk.sizeOf_spec]
        omega
      · rw [lookupKey, if_neg h2] at h
        have := ih h
        simp only [List.cons.sizeOf_spec]
        omega

theorem sizeOf_mem_items {x : JSON} {xs : List JSON} (h : x ∈ xs) :
    sizeOf x < sizeOf xs :=
  List.sizeOf_lt_of_mem h

/-! ### Transport of `arrElems` along the recursion -/

theorem arrElems_map_force (o : Option JSON) :
    arrElems (o.map force_strict_mode) = forceItems (arrElems o) := by
  cases o with
  | none => rfl
  | some v =>
      cases v with
      | obj f =>
          obtain ⟨g, hg⟩ := force_obj_shape f
          simp [arrElems, hg, forceItems]
      | arr xs => simp [arrElems, force_strict_mode]
      | null => rfl
      | bool b => rfl
      | num n => rfl
      | str s => rfl

/-! ### Helper lemmas about the predicates -/

theorem keysAvoidFields_lookup {bad : List String} {f : List (String × JSON)}
    {k : String} {v : JSON} (hf : keysAvoidFields bad f = true)
    (h : lookupKey f k = some v) : keysAvoid bad v = true := by
  induction f with
  | nil => simp [lookupKey] at h
  | cons kv rest ih =>
      obtain ⟨k', v'⟩ := kv
      rw [keysAvoidFields, Bool.and_eq_true] at hf
      by_cases h2 : k' = k
      · rw [lookupKey, if_pos h2] at h
        obtain rfl : v' = v := by injection h
        exact hf.1
      · rw [lookupKey, if_neg h2] at h
        exact ih hf.2 h

theorem keysAvoidItems_mem {bad : List String} {xs : List JSON} {x : JSON}
    (hxs : keysAvoidItems bad xs = true) (h : x ∈ xs) : keysAvoid bad x = true := by
  induction xs with
  | nil => simp at h
  | cons y rest ih =>
      rw [keysAvoidItems, Bool.and_eq_true] at hxs
      rcases List.mem_cons.mp h with h | h
      · exact h ▸ hxs.1
      · exact ih hxs.2 h

theorem keysAvoidItems_of_mem {bad : List String} {xs : List JSON}
    (h : ∀ x ∈ xs, keysAvoid bad x = true) : keysAvoidItems bad xs = true := by
  induction xs with
  | nil => rfl
  | cons y rest ih =>
      rw [keysAvoidItems, Bool.and_eq_true]
      exact ⟨h y (by simp), ih fun x hx => h x (by simp [hx])⟩

theorem keysAvoidLocal_setKey {bad : List String} {f : List (String × JSON)}
    {k : String} (v : JSON) (hk : k ∉ bad)
    (hf : keysAvoidLocal bad f = true) : keysAvoidLocal bad (setKey f k v) = true := by
  induction f with
  | nil => simp [setKey, keysAvoidLocal, hk]
  | cons kv rest ih =>
      obtain ⟨k', v'⟩ := kv
      rw [keysAvoidLocal, Bool.and_eq_true] at hf
      by_cases h2 : k' = k
      · rw [setKey, if_pos h2, keysAvoidLocal, Bool.and_eq_true]
        exact ⟨by simpa using hf.1, hf.2⟩
      · rw [setKey, if_neg h2, keysAvoidLocal, Bool.and_eq_true]
        exact ⟨hf.1, ih hf.2⟩

theorem keysAvoidFields_setKey {bad : List String} {f : List (String × JSON)}
    {k : String} {v : JSON} (hv : keysAvoid bad v = true)
    (hf : keysAvoidFields bad f = true) : keysAvoidFields bad (setKey f k v) = true := by
  induction f with
  | nil => simp [setKey, keysAvoidFields, hv]
  | cons kv rest ih =>
      obtain ⟨k', v'⟩ := kv
      rw [keysAvoidFields, Bool.and_eq_true] at hf
      by_cases h2 : k' = k
      · rw [setKey, if_pos h2, keysAvoidFields, Bool.and_eq_true]
        exact ⟨hv, hf.2⟩
      · rw [setKey, if_neg h2, keysAvoidFields, Bool.and_eq_true]
        exact ⟨hf.1, ih hf.2⟩

theorem keysAvoidLocal_forceVals {bad : List String} (f : List (String × JSON)) :
    keysAvoidLocal bad (forceVals f) = keysAvoidLocal bad f := by
  induction f with
  | nil => rfl
  | cons kv rest ih =>
      obtain ⟨k', v'⟩ := kv
      rw [forceVals, keysAvoidLocal, keysAvoidLocal, ih]

theorem keysAvoidFields_forceVals {bad : List String} {f : List (String × JSON)}
    (hx : ∀ kv ∈ f, keysAvoid bad kv.2 = true → keysAvoid bad (force_strict_mode kv.2) = true)
    (hf : keysAvoidFields bad f = true) : keysAvoidFields bad (forceVals f) = true := by
  induction f with
  | nil => rfl
  | cons kv rest ih =>
      obtain ⟨k', v'⟩ := kv
      rw [keysAvoidFields, Bool.and_eq_true] at hf
      rw [forceVals, keysAvoidFields, Bool.and_eq_true]
      exact ⟨hx (k', v') (by simp) hf.1, ih (fun kv hkv => hx kv (by simp [hkv])) hf.2⟩

theorem keysAvoidItems_forceItems {bad : List String} {xs : List JSON}
    (hx : ∀ x ∈ xs, keysAvoid bad x = true → keysAvoid bad (force_strict_mode x) = true)
    (hxs : keysAvoidItems bad xs = true) : keysAvoidItems bad (forceItems xs) = true := by
  induction xs with
  | nil => rfl
  | cons y rest ih =>
      rw [keysAvoidItems, Bool.and_eq_true] at hxs
      rw [forceItems, keysAvoidItems, Bool.and_eq_true]
      exact ⟨hx y (by simp) hxs.1, ih (fun x hmem => hx x (by simp [hmem])) hxs.2⟩

theorem mem_arrElems_lookup {f : List (String × JSON)} {k : String} {x : JSON}
    (hx : x ∈ arrElems (lookupKey f k)) :
    ∃ req0, lookupKey f k = some (JSON.arr req0) ∧ x ∈ req0 := by
  cases h : lookupKey f k with
  | none => rw [h] at hx; simp [arrElems] at hx
  | some v =>
      rw [h] at hx
      cases v with
      | arr xs => exact ⟨xs, rfl, by simpa [arrElems] using hx⟩
      | obj g => simp [arrElems] at hx
      | null => simp [arrElems] at hx
      | bool b => simp [arrElems] at hx
      | num n => simp [arrElems] at hx
      | str s => simp [arrElems] at hx

theorem sizeOf_mem_arrElems_lookup {f : List (String × JSON)} {k : String} {y : JSON}
    (hy : y ∈ arrElems (lookupKey f k)) : sizeOf y < sizeOf f := by
  obtain ⟨req0, hl, hmem⟩ := mem_arrElems_lookup hy
  have h1 := sizeOf_lookupKey hl
  have h2 := sizeOf_mem_items hmem
  simp only [JSON.arr.sizeOf_spec] at h1
  omega

theorem sizeOf_mem_fields {f : List (String × JSON)} {kv : String × JSON}
    (h : kv ∈ f) : sizeOf kv.2 < sizeOf f := by
  have h4 := List.sizeOf_lt_of_mem h
  obtain ⟨k', v'⟩ := kv
  simp only [Prod.mk.sizeOf_spec] at h4 ⊢
  omega

/-- A `required` item of a dict whose values all avoid `bad` avoids `bad`. -/
theorem keysAvoid_of_required_mem {bad : List String} {f : List (String × JSON)}
    {k : String} {y : JSON} (hkf : keysAvoidFields bad f = true)
    (hy : y ∈ arrElems (lookupKey f k)) : keysAvoid bad y = true := by
  obtain ⟨req0, hl, hmem⟩ := mem_arrElems_lookup hy
  have hv := keysAvoidFields_lookup hkf hl
  rw [keysAvoid] at hv
  exact keysAvoidItems_mem hv hmem

/-- `force_strict_mode` preserves key-avoidance, provided the two keys
it writes are not among the avoided ones. -/
theorem keysAvoid_force_aux {bad : List String}
    (hb1 : "additionalProperties" ∉ bad) (hb2 : "required" ∉ bad) :
    ∀ (N : Nat) (t : JSON), sizeOf t < N → keysAvoid bad t = true →
      keysAvoid bad (force_strict_mode t) = true := by
  intro N
  induction N with
  | zero => intro t ht _; omega
  | succ M ihM =>
      intro t ht hk
      cases t with
      | null => simpa [force_strict_mode] using hk
      | bool b => simpa [force_strict_mode] using hk
      | num n => simpa [force_strict_mode] using hk
      | str s => simpa [force_strict_mode] using hk
      | arr xs =>
          simp only [JSON.arr.sizeOf_spec] at ht
          rw [force_strict_mode]
          rw [keysAvoid] at hk ⊢
          refine keysAvoidItems_forceItems ?_ hk
          intro x hx hkx
          have hsx := sizeOf_mem_items hx
          exact ihM x (by omega) hkx
      | obj f =>
          simp only [JSON.obj.sizeOf_spec] at ht
          rw [keysAvoid, Bool.and_eq_true] at hk
          obtain ⟨hkl, hkf⟩ := hk
          have hfv : keysAvoidFields bad (forceVals f) = true := by
            refine keysAvoidFields_forceVals ?_ hkf
            intro kv hkv hkvv
            have h3 := sizeOf_mem_fields hkv
            exact ihM kv.2 (by omega) hkvv
          rw [force_strict_mode]
          by_cases hc : lookupKey f "type" = some (JSON.str "object")
          · rw [if_pos hc]
            rw [keysAvoid, Bool.and_eq_true]
            constructor
            · refine keysAvoidLocal_setKey _ hb2 ?_
              refine keysAvoidLocal_setKey _ hb1 ?_
              rw [keysAvoidLocal_forceVals]
              exact hkl
            · refine keysAvoidFields_setKey ?_ (keysAvoidFields_setKey rfl hfv)
              rw [keysAvoid]
              refine keysAvoidItems_of_mem ?_
              intro x hx
              rcases mem_addMissing_iff.mp hx with hx | ⟨n, _, rfl⟩
              · rw [lookupKey_forceVals, arrElems_map_force, forceItems_eq_map] at hx
                obtain ⟨y, hy, rfl⟩ := List.mem_map.mp hx
                have hky := keysAvoid_of_required_mem hkf hy
                have hsy := sizeOf_mem_arrElems_lookup hy
                exact ihM y (by omega) hky
              · rfl
          · rw [if_neg hc]
            rw [keysAvoid, Bool.and_eq_true]
            refine ⟨?_, hfv⟩
            rw [keysAvoidLocal_forceVals]
            exact hkl

/-- `force_strict_mode` preserves key-avoidance of the disallowed keys. -/
theorem keysAvoid_force {t : JSON}
    (hk : keysAvoid disallowedKeys t = true) :
    keysAvoid disallowedKeys (force_strict_mode t) = true :=
  keysAvoid_force_aux (by decide) (by decide) (sizeOf t + 1) t (by omega) hk

/-! ### The pruned tree avoids the disallowed keys, and pruning a clean
tree is the identity -/

theorem keysAvoidLocal_prune (f : List (String × JSON)) :
    keysAvoidLocal disallowedKeys (pruneFields f) = true := by
  induction f with
  | nil => rfl
  | cons kv rest ih =>
      obtain ⟨k, v⟩ := kv
      by_cases h : k ∈ disallowedKeys
      · rw [pruneFields, if_pos h]
        exact ih
      · rw [pruneFields, if_neg h, keysAvoidLocal, Bool.and_eq_true]
        exact ⟨by simpa using h, ih⟩

mutual

theorem keysAvoid_prune : ∀ t, keysAvoid disallowedKeys (prune_disallowed_keys t) = true
  | JSON.obj f => by
      rw [prune_disallowed_keys, keysAvoid, Bool.and_eq_true]
      exact ⟨keysAvoidLocal_prune f, keysAvoidFields_prune f⟩
  | JSON.arr xs => by
      rw [prune_disallowed_keys, keysAvoid]
      exact keysAvoidItems_prune xs
  | JSON.null => rfl
  | JSON.bool b => rfl
  | JSON.num n => rfl
  | JSON.str s => rfl

theorem keysAvoidFields_prune :
    ∀ f, keysAvoidFields disallowedKeys (pruneFields f) = true
  | [] => rfl
  | (k, v) :: rest => by
      by_cases h : k ∈ disallowedKeys
      · rw [pruneFields, if_pos h]
        exact keysAvoidFields_prune rest
      · rw [pruneFields, if_neg h, keysAvoidFields, Bool.and_eq_true]
        exact ⟨keysAvoid_prune v, keysAvoidFields_prune rest⟩

theorem keysAvoidItems_prune :
    ∀ xs, keysAvoidItems disallowedKeys (pruneItems xs) = true
  | [] => rfl
  | x :: rest => by
      rw [pruneItems, keysAvoidItems, Bool.and_eq_true]
      exact ⟨keysAvoid_prune x, keysAvoidItems_prune rest⟩

end

mutual

theorem prune_id_of_keysAvoid :
    ∀ t, keysAvoid disallowedKeys t = true → prune_disallowed_keys t = t
  | JSON.obj f, h => by
      rw [keysAvoid, Bool.and_eq_true] at h
      rw [prune_disallowed_keys, pruneFields_id_of f h.1 h.2]
  | JSON.arr xs, h => by
      rw [keysAvoid] at h
      rw [prune_disallowed_keys, pruneItems_id_of xs h]
  | JSON.null, _ => rfl
  | JSON.bool b, _ => rfl
  | JSON.num n, _ => rfl
  | JSON.str s, _ => rfl

theorem pruneFields_id_of :
    ∀ f, keysAvoidLocal disallowedKeys f = true →
      keysAvoidFields disallowedKeys f = true → pruneFields f = f
  | [], _, _ => rfl
  | (k, v) :: rest, hl, hf => by
      rw [keysAvoidLocal, Bool.and_eq_true] at hl
      rw [keysAvoidFields, Bool.and_eq_true] at hf
      have hk : k ∉ disallowedKeys := by simpa using hl.1
      rw [pruneFields, if_neg hk, prune_id_of_keysAvoid v hf.1,
        pruneFields_id_of rest hl.2 hf.2]

theorem pruneItems_id_of :
    ∀ xs, keysAvoidItems disallowedKeys xs = true → pruneItems xs = xs
  | [], _ => rfl
  | x :: rest, h => by
      rw [keysAvoidItems, Bool.and_eq_true] at h
      rw [pruneItems, prune_id_of_keysAvoid x h.1, pruneItems_id_of rest h.2]

end

/-! ### Key-avoidance is antitone in the avoided set -/

theorem keysAvoidLocal_subset (b b' : List String) (h : b' ⊆ b) :
    ∀ f, keysAvoidLocal b f = true → keysAvoidLocal b' f = true := by
  intro f
  induction f with
  | nil => intro; rfl
  | cons kv rest ih =>
      obtain ⟨k, v⟩ := kv
      intro hf
      rw [keysAvoidLocal, Bool.and_eq_true] at hf
      rw [keysAvoidLocal, Bool.and_eq_true]
      refine ⟨?_, ih hf.2⟩
      have := of_decide_eq_true hf.1
      exact decide_eq_true fun hx => this (h hx)

mutual

theorem keysAvoid_subset (b b' : List String) (h : b' ⊆ b) :
    ∀ t, keysAvoid b t = true → keysAvoid b' t = true
  | JSON.obj f, hk => by
      rw [keysAvoid, Bool.and_eq_true] at hk
      rw [keysAvoid, Bool.and_eq_true]
      exact ⟨keysAvoidLocal_subset b b' h f hk.1, keysAvoidFields_subset b b' h f hk.2⟩
  | JSON.arr xs, hk => by
      rw [keysAvoid] at hk
      rw [keysAvoid]
      exact keysAvoidItems_subset b b' h xs hk
  | JSON.null, _ => rfl
  | JSON.bool _, _ => rfl
  | JSON.num _, _ => rfl
  | JSON.str _, _ => rfl

theorem keysAvoidFields_subset (b b' : List String) (h : b' ⊆ b) :
    ∀ f, keysAvoidFields b f = true → keysAvoidFields b' f = true
  | [], _ => rfl
  | (k, v) :: rest, hf => by
      rw [keysAvoidFields, Bool.and_eq_true] at hf
      rw [keysAvoidFields, Bool.and_eq_true]
      exact ⟨keysAvoid_subset b b' h v hf.1, keysAvoidFields_subset b b' h rest hf.2⟩

theorem keysAvoidItems_subset (b b' : List String) (h : b' ⊆ b) :
    ∀ xs, keysAvoidItems b xs = true → keysAvoidItems b' xs = true
  | [], _ => rfl
  | x :: rest, hxs => by
      rw [keysAvoidItems, Bool.and_eq_true] at hxs
      rw [keysAvoidItems, Bool.and_eq_true]
      exact ⟨keysAvoid_subset b b' h x hxs.1, keysAvoidItems_subset b b' h rest hxs.2⟩

end

/-- The normalized tree carries none of the five pruned keys anywhere:
pruning removes them and forcing writes only `additionalProperties` and
`required`. -/
theorem keysAvoid_normalize (t : JSON) :
    keysAvoid disallowedKeys (normalize t) = true :=
  keysAvoid_force (keysAvoid_prune t)

/-! ### `wfSchema` survives pruning -/

theorem map_prune_eq_str_iff (o : Option JSON) :
    o.map prune_disallowed_keys = some (JSON.str "object") ↔
      o = some (JSON.str "object") := by
  cases o with
  | none => simp
  | some w => simp [prune_eq_str_iff]

theorem reqShapeOk_map_prune (o : Option JSON) :
    reqShapeOk (o.map prune_disallowed_keys) = reqShapeOk o := by
  cases o with
  | none => rfl
  | some v => cases v <;> simp [reqShapeOk, prune_disallowed_keys]

theorem propsShapeOk_map_prune (o : Option JSON) :
    propsShapeOk (o.map prune_disallowed_keys) = propsShapeOk o := by
  cases o with
  | none => rfl
  | some v =>
      cases v with
      | obj pfs =>
          have h1 : (some (JSON.obj pfs)).map prune_disallowed_keys =
              some (JSON.obj (pruneFields pfs)) := rfl
          rw [h1, propsShapeOk, propsShapeOk]
          rw [lookupKey_pruneFields pfs (by decide)]
          exact decide_eq_decide.mpr (not_congr (map_prune_eq_str_iff _))
      | arr xs => rfl
      | null => rfl
      | bool b => rfl
      | num n => rfl
      | str s => rfl

theorem wfLocal_pruneFields (f : List (String × JSON)) (h : wfLocal f = true) :
    wfLocal (pruneFields f) = true := by
  rw [wfLocal] at h ⊢
  have ht := lookupKey_pruneFields f (k := "type") (by decide)
  by_cases hc : lookupKey f "type" = some (JSON.str "object")
  · have ht2 : lookupKey (pruneFields f) "type" = some (JSON.str "object") := by
      rw [ht, hc]
      rfl
    rw [if_pos hc] at h
    rw [if_pos ht2, lookupKey_pruneFields f (k := "required") (by decide),
      lookupKey_pruneFields f (k := "properties") (by decide),
      reqShapeOk_map_prune, propsShapeOk_map_prune]
    exact h
  · have ht2 : ¬ lookupKey (pruneFields f) "type" = some (JSON.str "object") := by
      rw [ht]
      intro hx
      exact hc ((map_prune_eq_str_iff _).mp hx)
    rw [if_neg ht2]

mutual

theorem wfSchema_prune : ∀ t, wfSchema t = true → wfSchema (prune_disallowed_keys t) = true
  | JSON.obj f, h => by
      rw [wfSchema, Bool.and_eq_true] at h
      rw [prune_disallowed_keys, wfSchema, Bool.and_eq_true]
      exact ⟨wfLocal_pruneFields f h.1, wfSchemaFields_prune f h.2⟩
  | JSON.arr xs, h => by
      rw [wfSchema] at h
      rw [prune_disallowed_keys, wfSchema]
      exact wfSchemaItems_prune xs h
  | JSON.null, _ => rfl
  | JSON.bool _, _ => rfl
  | JSON.num _, _ => rfl
  | JSON.str _, _ => rfl

theorem wfSchemaFields_prune :
    ∀ f, wfSchemaFields f = true → wfSchemaFields (pruneFields f) = true
  | [], _ => rfl
  | (k, v) :: rest, h => by
      rw [wfSchemaFields, Bool.and_eq_true] at h
      by_cases hd : k ∈ disallowedKeys
      · rw [pruneFields, if_pos hd]
        exact wfSchemaFields_prune rest h.2
      · rw [pruneFields, if_neg hd, wfSchemaFields, Bool.and_eq_true]
        exact ⟨wfSchema_prune v h.1, wfSchemaFields_prune rest h.2⟩

theorem wfSchemaItems_prune :
    ∀ xs, wfSchemaItems xs = true → wfSchemaItems (pruneItems xs) = true
  | [], _ => rfl
  | x :: rest, h => by
      rw [wfSchemaItems, Bool.and_eq_true] at h
      rw [pruneItems, wfSchemaItems, Bool.and_eq_true]
      exact ⟨wfSchema_prune x h.1, wfSchemaItems_prune rest h.2⟩

end

/-! ### Helper lemmas for `wfSchema` and `strictOk` -/

theorem wfSchemaFields_lookup {f : List (String × JSON)} {k : String} {v : JSON}
    (hf : wfSchemaFields f = true) (h : lookupKey f k = some v) :
    wfSchema v = true := by
  induction f with
  | nil => simp [lookupKey] at h
  | cons kv rest ih =>
      obtain ⟨k', v'⟩ := kv
      rw [wfSchemaFields, Bool.and_eq_true] at hf
      by_cases h2 : k' = k
      · rw [lookupKey, if_pos h2] at h
        obtain rfl : v' = v := by injection h
        exact hf.1
      · rw [lookupKey, if_neg h2] at h
        exact ih hf.2 h

theorem wfSchemaFields_mem {f : List (String × JSON)} {kv : String × JSON}
    (hf : wfSchemaFields f = true) (h : kv ∈ f) : wfSchema kv.2 = true := by
  induction f with
  | nil => simp at h
  | cons kv' rest ih =>
      obtain ⟨k', v'⟩ := kv'
      rw [wfSchemaFields, Bool.and_eq_true] at hf
      rcases List.mem_cons.mp h with h | h
      · rw [h]
        exact hf.1
      · exact ih hf.2 h

theorem wfSchemaItems_mem {xs : List JSON} {x : JSON}
    (hxs : wfSchemaItems xs = true) (h : x ∈ xs) : wfSchema x = true := by
  induction xs with
  | nil => simp at h
  | cons y rest ih =>
      rw [wfSchemaItems, Bool.and_eq_true] at hxs
      rcases List.mem_cons.mp h with h | h
      · exact h ▸ hxs.1
      · exact ih hxs.2 h

/-- A member of a well-formed dict's `required` list is well-formed. -/
theorem wfSchema_of_required_mem {f : List (String × JSON)} {k : String} {y : JSON}
    (hwf : wfSchemaFields f = true) (hy : y ∈ arrElems (lookupKey f k)) :
    wfSchema y = true := by
  obtain ⟨req0, hl, hmem⟩ := mem_arrElems_lookup hy
  have hv := wfSchemaFields_lookup hwf hl
  rw [wfSchema] at hv
  exact wfSchemaItems_mem hv hmem

theorem strictOkFields_setKey {f : List (String × JSON)} {k : String} {v : JSON}
    (hv : strictOk v = true) (hf : strictOkFields f = true) :
    strictOkFields (setKey f k v) = true := by
  induction f with
  | nil => simp [setKey, strictOkFields, hv]
  | cons kv rest ih =>
      obtain ⟨k', v'⟩ := kv
      rw [strictOkFields, Bool.and_eq_true] at hf
      by_cases h2 : k' = k
      · rw [setKey, if_pos h2, strictOkFields, Bool.and_eq_true]
        exact ⟨hv, hf.2⟩
      · rw [setKey, if_neg h2, strictOkFields, Bool.and_eq_true]
        exact ⟨hf.1, ih hf.2⟩

theorem strictOkItems_of_mem {xs : List JSON}
    (h : ∀ x ∈ xs, strictOk x = true) : strictOkItems xs = true := by
  induction xs with
  | nil => rfl
  | cons y rest ih =>
      rw [strictOkItems, Bool.and_eq_true]
      exact ⟨h y (by simp), ih fun x hx => h x (by simp [hx])⟩

theorem strictOkFields_forceVals {f : List (String × JSON)}
    (hx : ∀ kv ∈ f, strictOk (force_strict_mode kv.2) = true) :
    strictOkFields (forceVals f) = true := by
  induction f with
  | nil => rfl
  | cons kv rest ih =>
      obtain ⟨k', v'⟩ := kv
      rw [forceVals, strictOkFields, Bool.and_eq_true]
      exact ⟨hx (k', v') (by simp), ih fun kv hkv => hx kv (by simp [hkv])⟩

theorem strictOkItems_forceItems {xs : List JSON}
    (hx : ∀ x ∈ xs, strictOk (force_strict_mode x) = true) :
    strictOkItems (forceItems xs) = true := by
  induction xs with
  | nil => rfl
  | cons y rest ih =>
      rw [forceItems, strictOkItems, Bool.and_eq_true]
      exact ⟨hx y (by simp), ih fun x hmem => hx x (by simp [hmem])⟩

theorem map_force_eq_str_iff (o : Option JSON) (s : String) :
    o.map force_strict_mode = some (JSON.str s) ↔ o = some (JSON.str s) := by
  cases o with
  | none => simp
  | some w => simp [force_eq_str_iff]

theorem force_obj_of_object {f : List (String × JSON)}
    (hc : lookupKey f "type" = some (JSON.str "object")) :
    force_strict_mode (JSON.obj f) = JSON.obj (forcedObjFields f) := by
  simp only [force_strict_mode]
  rw [if_pos hc]
  rfl

theorem force_obj_of_not_object {p : List (String × JSON)}
    (h : ¬ lookupKey p "type" = some (JSON.str "object")) :
    force_strict_mode (JSON.obj p) = JSON.obj (forceVals p) := by
  simp only [force_strict_mode]
  rw [if_neg h]

theorem lookupKey_forcedObjFields_other {f : List (String × JSON)} {k : String}
    (h1 : k ≠ "required") (h2 : k ≠ "additionalProperties") :
    lookupKey (forcedObjFields f) k = (lookupKey f k).map force_strict_mode := by
  rw [forcedObjFields, lookupKey_setKey_ne _ _ h1, lookupKey_setKey_ne _ _ h2,
    lookupKey_forceVals]

theorem lookupKey_forcedObjFields_required (f : List (String × JSON)) :
    lookupKey (forcedObjFields f) "required" =
      some (JSON.arr (addMissing (arrElems (lookupKey (forceVals f) "required"))
        (objKeys (lookupKey f "properties")))) := by
  rw [forcedObjFields, lookupKey_setKey_self]

theorem lookupKey_forcedObjFields_ap (f : List (String × JSON)) :
    lookupKey (forcedObjFields f) "additionalProperties" = some (JSON.bool false) := by
  rw [forcedObjFields, lookupKey_setKey_ne _ _ (by decide), lookupKey_setKey_self]

/-- The local strict condition holds at the dict `force_strict_mode`
produces from a well-formed object-classified dict. -/
theorem strictLocal_forcedObj {f : List (String × JSON)}
    (hc : lookupKey f "type" = some (JSON.str "object")) (hwl : wfLocal f = true) :
    strictLocal (forcedObjFields f) = true := by
  have htype : lookupKey (forcedObjFields f) "type" = some (JSON.str "object") := by
    rw [lookupKey_forcedObjFields_other (by decide) (by decide), hc]
    rfl
  rw [strictLocal, if_pos htype, Bool.and_eq_true]
  constructor
  · apply decide_eq_true
    exact lookupKey_forcedObjFields_ap f
  · rw [List.all_eq_true]
    intro n hn
    apply decide_eq_true
    rw [lookupKey_forcedObjFields_required, arrElems]
    rw [lookupKey_forcedObjFields_other (by decide) (by decide)] at hn
    rw [wfLocal, if_pos hc, Bool.and_eq_true] at hwl
    cases hp : lookupKey f "properties" with
    | none =>
        rw [hp] at hn
        simp [objKeys] at hn
    | some v =>
        rw [hp] at hn
        have hps := hwl.2
        rw [hp] at hps
        cases v with
        | obj pfs =>
            have hno : ¬ lookupKey pfs "type" = some (JSON.str "object") := by
              rw [propsShapeOk] at hps
              exact of_decide_eq_true hps
            rw [show (some (JSON.obj pfs)).map force_strict_mode =
                some (force_strict_mode (JSON.obj pfs)) from rfl,
              force_obj_of_not_object hno, objKeys, keysOf_forceVals] at hn
            apply str_mem_addMissing
            simpa [objKeys] using hn
        | arr xs => simp [propsShapeOk] at hps
        | null => simp [propsShapeOk] at hps
        | bool b => simp [propsShapeOk] at hps
        | num m => simp [propsShapeOk] at hps
        | str s => simp [propsShapeOk] at hps

/-- The recursion part of the strict condition at a forced object dict:
given the condition on the forced original values and on the forced
pre-existing `required` items. -/
theorem strictOkFields_forcedObj {f : List (String × JSON)}
    (hfv : strictOkFields (forceVals f) = true)
    (hreq : ∀ y ∈ arrElems (lookupKey f "required"),
      strictOk (force_strict_mode y) = true) :
    strictOkFields (forcedObjFields f) = true := by
  refine strictOkFields_setKey ?_ (strictOkFields_setKey rfl hfv)
  rw [strictOk]
  refine strictOkItems_of_mem ?_
  intro x hx
  rcases mem_addMissing_iff.mp hx with hx | ⟨n, _, rfl⟩
  · rw [lookupKey_forceVals, arrElems_map_force, forceItems_eq_map] at hx
    obtain ⟨y, hy, rfl⟩ := List.mem_map.mp hx
    exact hreq y hy
  · rfl

/-! ### After forcing, every object node is closed and its property
names all sit in `required` -/

theorem strictOk_force_aux :
    ∀ (N : Nat) (t : JSON), sizeOf t < N → wfSchema t = true →
      strictOk (force_strict_mode t) = true := by
  intro N
  induction N with
  | zero => intro t ht _; omega
  | succ M ihM =>
      intro t ht hw
      cases t with
      | null => rfl
      | bool b => rfl
      | num n => rfl
      | str s => rfl
      | arr xs =>
          simp only [JSON.arr.sizeOf_spec] at ht
          rw [wfSchema] at hw
          rw [force_strict_mode, strictOk]
          refine strictOkItems_forceItems ?_
          intro x hx
          have hsx := sizeOf_mem_items hx
          exact ihM x (by omega) (wfSchemaItems_mem hw hx)
      | obj f =>
          simp only [JSON.obj.sizeOf_spec] at ht
          rw [wfSchema, Bool.and_eq_true] at hw
          obtain ⟨hwl, hwf⟩ := hw
          have hfv : strictOkFields (forceVals f) = true := by
            refine strictOkFields_forceVals ?_
            intro kv hkv
            have h3 := sizeOf_mem_fields hkv
            exact ihM kv.2 (by omega) (wfSchemaFields_mem hwf hkv)
          by_cases hc : lookupKey f "type" = some (JSON.str "object")
          · rw [force_obj_of_object hc, strictOk, Bool.and_eq_true]
            refine ⟨strictLocal_forcedObj hc hwl, ?_⟩
            refine strictOkFields_forcedObj hfv ?_
            intro y hy
            have hsy := sizeOf_mem_arrElems_lookup hy
            exact ihM y (by omega) (wfSchema_of_required_mem hwf hy)
          · rw [force_obj_of_not_object hc, strictOk, Bool.and_eq_true]
            refine ⟨?_, hfv⟩
            rw [strictLocal]
            have hng : ¬ lookupKey (forceVals f) "type" = some (JSON.str "object") := by
              rw [lookupKey_forceVals]
              intro hx
              exact hc ((map_force_eq_str_iff _ _).mp hx)
            rw [if_neg hng]

/-- Normalization of a well-formed tree yields a tree satisfying the
strict condition at every object node. -/
theorem strictOk_normalize {t : JSON} (h : wfSchema t = true) :
    strictOk (normalize t) = true :=
  strictOk_force_aux (sizeOf (prune_disallowed_keys t) + 1) (prune_disallowed_keys t)
    (by omega) (wfSchema_prune t h)

/-! ### Idempotence of forcing on well-formed trees -/

theorem force_arr_eq (xs : List JSON) :
    force_strict_mode (JSON.arr xs) = JSON.arr (forceItems xs) := rfl

theorem forceItems_id_of {xs : List JSON}
    (h : ∀ x ∈ xs, force_strict_mode x = x) : forceItems xs = xs := by
  induction xs with
  | nil => rfl
  | cons y rest ih =>
      rw [forceItems, h y (by simp), ih fun x hx => h x (by simp [hx])]

theorem forceItems_idem_of {xs : List JSON}
    (h : ∀ x ∈ xs, force_strict_mode (force_strict_mode x) = force_strict_mode x) :
    forceItems (forceItems xs) = forceItems xs := by
  induction xs with
  | nil => rfl
  | cons y rest ih =>
      simp only [forceItems]
      rw [h y (by simp), ih fun x hx => h x (by simp [hx])]

theorem forceVals_idem_of {f : List (String × JSON)}
    (h : ∀ kv ∈ f, force_strict_mode (force_strict_mode kv.2) = force_strict_mode kv.2) :
    forceVals (forceVals f) = forceVals f := by
  induction f with
  | nil => rfl
  | cons kv rest ih =>
      obtain ⟨k', v'⟩ := kv
      simp only [forceVals]
      rw [h (k', v') (by simp), ih fun kv hkv => h kv (by simp [hkv])]

theorem objKeys_map_force_of_propsShapeOk {o : Option JSON}
    (h : propsShapeOk o = true) :
    objKeys (o.map force_strict_mode) = objKeys o := by
  cases o with
  | none => rfl
  | some v =>
      cases v with
      | obj pfs =>
          have hno : ¬ lookupKey pfs "type" = some (JSON.str "object") := by
            rw [propsShapeOk] at h
            exact of_decide_eq_true h
          rw [show (some (JSON.obj pfs)).map force_strict_mode =
              some (force_strict_mode (JSON.obj pfs)) from rfl,
            force_obj_of_not_object hno, objKeys, objKeys, keysOf_forceVals]
      | arr xs => simp [propsShapeOk] at h
      | null => simp [propsShapeOk] at h
      | bool b => simp [propsShapeOk] at h
      | num m => simp [propsShapeOk] at h
      | str s => simp [propsShapeOk] at h

/-- Forcing the dict a first forcing produced at an object node changes
nothing: `additionalProperties` is already `false`, every property name
already sits in `required`, and (by the hypotheses) re-forcing the
already-forced values and `required` items is the identity. -/
theorem forcedObjFields_idem {f : List (String × JSON)}
    (hc : lookupKey f "type" = some (JSON.str "object"))
    (hwl : wfLocal f = true)
    (hvals : forceVals (forceVals f) = forceVals f)
    (hfix : ∀ x ∈ arrElems (lookupKey (forceVals f) "required"),
      force_strict_mode x = x) :
    forcedObjFields (forcedObjFields f) = forcedObjFields f := by
  have hps : propsShapeOk (lookupKey f "properties") = true := by
    rw [wfLocal, if_pos hc, Bool.and_eq_true] at hwl
    exact hwl.2
  have hreq1fix : ∀ x ∈ addMissing (arrElems (lookupKey (forceVals f) "required"))
      (objKeys (lookupKey f "properties")), force_strict_mode x = x := by
    intro x hx
    rcases mem_addMissing_iff.mp hx with hx | ⟨n, _, rfl⟩
    · exact hfix x hx
    · rfl
  have hFvals : forceVals (forcedObjFields f) = forcedObjFields f := by
    rw [forcedObjFields, forceVals_setKey, forceVals_setKey, hvals,
      show force_strict_mode (JSON.bool false) = JSON.bool false from rfl,
      force_arr_eq, forceItems_id_of hreq1fix]
  calc forcedObjFields (forcedObjFields f)
      = setKey (setKey (forceVals (forcedObjFields f)) "additionalProperties"
          (JSON.bool false)) "required"
          (JSON.arr (addMissing (arrElems (lookupKey (forceVals (forcedObjFields f))
            "required")) (objKeys (lookupKey (forcedObjFields f) "properties")))) := rfl
    _ = setKey (setKey (forcedObjFields f) "additionalProperties" (JSON.bool false))
          "required" (JSON.arr (addMissing (arrElems (lookupKey (forcedObjFields f)
            "required")) (objKeys (lookupKey (forcedObjFields f) "properties")))) := by
          rw [hFvals]
    _ = forcedObjFields f := by
          rw [lookupKey_forcedObjFields_required,
            lookupKey_forcedObjFields_other (by decide) (by decide), arrElems,
            objKeys_map_force_of_propsShapeOk hps,
            addMissing_eq_self (fun n hn => str_mem_addMissing _ hn),
            setKey_eq_self (lookupKey_forcedObjFields_ap f),
            setKey_eq_self (lookupKey_forcedObjFields_required f)]

theorem force_idem_aux :
    ∀ (N : Nat) (t : JSON), sizeOf t < N → wfSchema t = true →
      force_strict_mode (force_strict_mode t) = force_strict_mode t := by
  intro N
  induction N with
  | zero => intro t ht _; omega
  | succ M ihM =>
      intro t ht hw
      cases t with
      | null => rfl
      | bool b => rfl
      | num n => rfl
      | str s => rfl
      | arr xs =>
          simp only [JSON.arr.sizeOf_spec] at ht
          rw [wfSchema] at hw
          rw [force_arr_eq, force_arr_eq]
          refine congrArg JSON.arr (forceItems_idem_of ?_)
          intro x hx
          have hsx := sizeOf_mem_items hx
          exact ihM x (by omega) (wfSchemaItems_mem hw hx)
      | obj f =>
          simp only [JSON.obj.sizeOf_spec] at ht
          rw [wfSchema, Bool.and_eq_true] at hw
          obtain ⟨hwl, hwf⟩ := hw
          have hvals : forceVals (forceVals f) = forceVals f := by
            refine forceVals_idem_of ?_
            intro kv hkv
            have h3 := sizeOf_mem_fields hkv
            exact ihM kv.2 (by omega) (wfSchemaFields_mem hwf hkv)
          by_cases hc : lookupKey f "type" = some (JSON.str "object")
          · rw [force_obj_of_object hc]
            have htype : lookupKey (forcedObjFields f) "type" =
                some (JSON.str "object") := by
              rw [lookupKey_forcedObjFields_other (by decide) (by decide), hc]
              rfl
            rw [force_obj_of_object htype]
            refine congrArg JSON.obj (forcedObjFields_idem hc hwl hvals ?_)
            intro x hx
            rw [lookupKey_forceVals, arrElems_map_force, forceItems_eq_map] at hx
            obtain ⟨y, hy, rfl⟩ := List.mem_map.mp hx
            have hsy := sizeOf_mem_arrElems_lookup hy
            exact ihM y (by omega) (wfSchema_of_required_mem hwf hy)
          · rw [force_obj_of_not_object hc]
            have hng : ¬ lookupKey (forceVals f) "type" =
                some (JSON.str "object") := by
              rw [lookupKey_forceVals]
              intro hx
              exact hc ((map_force_eq_str_iff _ _).mp hx)
            rw [force_obj_of_not_object hng, hvals]

/-- Normalization is idempotent on well-formed trees: the second prune
finds nothing to remove, and the second force changes nothing. -/
theorem normalize_idem {t : JSON} (h : wfSchema t = true) :
    normalize (normalize t) = normalize t := by
  rw [normalize, normalize, prune_id_of_keysAvoid _ (keysAvoid_force (keysAvoid_prune t))]
  exact force_idem_aux (sizeOf (prune_disallowed_keys t) + 1) _ (by omega)
    (wfSchema_prune t h)

/-! ### The line loop of `_parse_docstring` -/

theorem docStep_inParams (st : DocState) (line : String) :
    (docStep st line).inParams = (st.inParams || startsWithParamTag line) := by
  rw [docStep]
  by_cases h : startsWithParamTag line = true
  · rw [if_pos h, h]
    cases matchParamTag line <;> simp
  · have h' : startsWithParamTag line = false := by simpa using h
    rw [if_neg h, h']
    by_cases h2 : st.inParams
    · rw [if_pos h2]
      by_cases h3 : st.params.isEmpty <;> simp [h3, h2]
    · rw [if_neg h2]
      simp [h2]

theorem foldl_docStep_inParams (lines : List String) :
    ∀ st : DocState, (lines.foldl docStep st).inParams =
      (st.inParams || lines.any (fun l => startsWithParamTag l)) := by
  induction lines with
  | nil => intro st; simp
  | cons l rest ih =>
      intro st
      rw [List.foldl_cons, ih, docStep_inParams]
      simp [Bool.or_assoc]

theorem runLines_inParams (lines : List String) :
    (runLines lines).inParams = lines.any (fun l => startsWithParamTag l) := by
  rw [runLines, foldl_docStep_inParams]
  rfl

theorem runLines_append (lines : List String) (line : String) :
    runLines (lines ++ [line]) = docStep (runLines lines) line := by
  rw [runLines, runLines, List.foldl_append]
  rfl

theorem strLength_pos_of_ne {s : String} (h : ¬ s = "") : 0 < s.length := by
  cases s with
  | mk cs =>
      cases cs with
      | nil => exact absurd rfl h
      | cons c rest => simp [String.length]

theorem ite_desc_pos (n d : String) :
    0 < (if d = "" then n ++ " (no description)" else d).length := by
  split
  · have h17 : (" (no description)" : String).length = 17 := rfl
    rw [String.length_append, h17]
    omega
  · rename_i hd
    exact strLength_pos_of_ne hd

/-! ## The claims -/

/-- C5 (counterexample): parsing the four-line documentation text yields
the summary `"Does X. "` — with a trailing space, because the blank
separator line is appended to `description_lines` and `" ".join` then
joins it with a space — not `"Does X."` as claimed. -/
theorem claim5_counterexample :
    (parseDocstring "Does X.\n\n:param a: about a\n:param b: about b").1 ≠
      "Does X." := by decide

/-- C5 (amended): parsing `"Does X.\n\n:param a: about a\n:param b: about b"`
yields the summary `"Does X. "` (trailing space included) and the
parameter mapping `{"a": "about a", "b": "about b"}`. -/
theorem claim5_theorem :
    parseDocstring "Does X.\n\n:param a: about a\n:param b: about b" =
      ("Does X. ", [("a", "about a"), ("b", "about b")]) := by decide

/-- C9: the type mapper never signals an error (it is total by
construction): the four table entries map as documented and every
annotation recognized by none of the union / `NoneType` /
parametrized-`list` / parametrized-`dict` checks falls back to the
token `"string"`. -/
theorem claim9_theorem :
    python_type_to_json_schema PyType.str = Sum.inl "string" ∧
    python_type_to_json_schema PyType.int = Sum.inl "integer" ∧
    python_type_to_json_schema PyType.float = Sum.inl "number" ∧
    python_type_to_json_schema PyType.bool = Sum.inl "boolean" ∧
    ∀ s, python_type_to_json_schema (PyType.other s) = Sum.inl "string" :=
  ⟨rfl, rfl, rfl, rfl, fun _ => rfl⟩

/-- C6: for every primitive annotation of the mapping table, mapping the
optional-of-that-primitive annotation (a union with the
absence-of-value marker, in either member order) yields a token list
(not a single token) of exactly two tokens whose set is the primitive's
token together with `"null"`. -/
theorem claim6_theorem (t : PyType)
    (h : t = PyType.str ∨ t = PyType.int ∨ t = PyType.float ∨ t = PyType.bool) :
    (python_type_to_json_schema (PyType.union [t, PyType.noneType])).isRight = true ∧
    (python_type_to_json_schema (PyType.union [PyType.noneType, t])).isRight = true ∧
    python_type_to_json_schema t = Sum.inl (python_type_to_json_type t) ∧
    (tokensOf (python_type_to_json_schema
      (PyType.union [t, PyType.noneType]))).length = 2 ∧
    (tokensOf (python_type_to_json_schema
      (PyType.union [PyType.noneType, t]))).length = 2 ∧
    (tokensOf (python_type_to_json_schema
      (PyType.union [t, PyType.noneType]))).toFinset =
      {python_type_to_json_type t, "null"} ∧
    (tokensOf (python_type_to_json_schema
      (PyType.union [PyType.noneType, t]))).toFinset =
      {python_type_to_json_type t, "null"} := by
  rcases h with rfl | rfl | rfl | rfl <;>
    exact ⟨rfl, rfl, rfl, rfl, rfl, by decide, by decide⟩

/-- C6 (witness): the optional-integer annotation in both declaration
orders. -/
theorem claim6_witness :
    (python_type_to_json_schema
      (PyType.union [PyType.int, PyType.noneType])).isRight = true ∧
    (python_type_to_json_schema
      (PyType.union [PyType.noneType, PyType.int])).isRight = true ∧
    python_type_to_json_schema PyType.int =
      Sum.inl (python_type_to_json_type PyType.int) ∧
    (tokensOf (python_type_to_json_schema
      (PyType.union [PyType.int, PyType.noneType]))).length = 2 ∧
    (tokensOf (python_type_to_json_schema
      (PyType.union [PyType.noneType, PyType.int]))).length = 2 ∧
    (tokensOf (python_type_to_json_schema
      (PyType.union [PyType.int, PyType.noneType]))).toFinset =
      {python_type_to_json_type PyType.int, "null"} ∧
    (tokensOf (python_type_to_json_schema
      (PyType.union [PyType.noneType, PyType.int]))).toFinset =
      {python_type_to_json_type PyType.int, "null"} :=
  claim6_theorem PyType.int (Or.inr (Or.inl rfl))

/-- C7 (counterexample): on the text
`":param a: one\n:param b: x\n:param a: two\ncont"` the most recently
captured parameter is `a` (its tag is the third line), yet the
continuation line `cont` is appended to `b`: recapturing `a` updated the
existing entry in place without moving it to the end of the mapping, so
`a` keeps `"two"` with no continuation. -/
theorem claim7_counterexample :
    dictGet (parseDocstring ":param a: one\n:param b: x\n:param a: two\ncont").2
        "a" = some "two" ∧
    dictGet (parseDocstring ":param a: one\n:param b: x\n:param a: two\ncont").2
        "b" = some "x cont" ∧
    ¬ dictGet (parseDocstring ":param a: one\n:param b: x\n:param a: two\ncont").2
        "a" = some "two cont" := by decide

/-- C7 (amended): a non-tag line arriving once a parameter tag has been
seen (the `in_params_section` flag, equivalently: some earlier line
starts with `:param`) is appended, space-joined, to the description of
the parameter occupying the last position of the mapping — the most
recently first-seen name, which coincides with the most recently
captured tag only when no parameter name repeats — and is silently
dropped, leaving the whole state unchanged, while the mapping is still
empty. -/
theorem claim7_theorem (lines : List String) (line : String)
    (h1 : startsWithParamTag line = false)
    (h2 : lines.any (fun l => startsWithParamTag l) = true) :
    ((runLines lines).params = [] → runLines (lines ++ [line]) = runLines lines) ∧
    ((runLines lines).params ≠ [] → runLines (lines ++ [line]) =
      { runLines lines with params := appendLast (runLines lines).params line }) := by
  have hin : (runLines lines).inParams = true := by
    rw [runLines_inParams, h2]
  rw [runLines_append, docStep, h1]
  rw [if_neg (by simp), if_pos hin]
  constructor
  · intro hp
    rw [if_pos (by simp [hp])]
  · intro hp
    rw [if_neg (by simp [hp])]

/-- C7 (witness): after the single tag line `":param a: x"`, the
continuation line `"more"` is appended to `a`'s description. -/
theorem claim7_witness :
    ((runLines [":param a: x"]).params = [] →
      runLines ([":param a: x"] ++ ["more"]) = runLines [":param a: x"]) ∧
    ((runLines [":param a: x"]).params ≠ [] →
      runLines ([":param a: x"] ++ ["more"]) =
        { runLines [":param a: x"] with
            params := appendLast (runLines [":param a: x"]).params "more" }) :=
  claim7_theorem [":param a: x"] "more" (by decide) (by decide)

/-- C3 (counterexample): the signature-introspecting entry point (`tool`
in `src/tool.py`) emits the parsed top description verbatim, so a
callable with no documentation gets a descriptor whose
`function.description` is the empty string, not the synthesized
placeholder. -/
theorem claim3_counterexample :
    getField (fnPart (sigTool "f" "" [])) "description" = JSON.str "" ∧
    ("" : String) ≠ "f (no description)" := by decide

/-- C3 (amended): the model-based entry point (the `tool` decorator of
`src/main.py`) never yields an empty description — with no documentation
at all it synthesizes `"<name> (no description)"` — while the
signature-introspecting entry point (`tool` in `src/tool.py`) emits the
parsed top description verbatim, which is empty for an undocumented
callable. -/
theorem claim3_theorem :
    (∀ (n s l : String) (r : JSON),
      getField (fnPart (modelTool n s l r)) "description" =
        JSON.str (resolveDescription n s l)) ∧
    (∀ n s l : String, 0 < (resolveDescription n s l).length) ∧
    (∀ n : String, resolveDescription n "" "" = n ++ " (no description)") ∧
    (∀ (fn doc : String) (ps : List PyParam),
      getField (fnPart (sigTool fn doc ps)) "description" =
        JSON.str (parseDocstring doc).1) := by
  refine ⟨fun n s l r => rfl, ?_, fun n => rfl, fun fn doc ps => rfl⟩
  intro n s l
  simp only [resolveDescription]
  exact ite_desc_pos n _

/-- C4 (counterexample): parameter `x` declares a default, yet its name
appears in the emitted schema's `required` list: line 154 of
`src/tool.py` writes `list(properties.keys())` there, leaving the
computed no-default list unused. -/
theorem claim4_counterexample :
    JSON.str "x" ∈ arrItems (getField (paramsPart (sigTool "g" ""
      [⟨"x", some PyType.int, true⟩])) "required") ∧
    (⟨"x", some PyType.int, true⟩ : PyParam).hasDefault = true := by
  exact ⟨by decide, rfl⟩

/-- C4 (amended): the emitted schema's `required` list contains every
parameter name regardless of defaults, while the decorator's local
`required` variable — computed on lines 138-142 of `src/tool.py` and
then not used by the emitted schema — contains a name exactly when that
parameter declares no default value. -/
theorem claim4_theorem (fn doc : String) (ps : List PyParam) (n : String) :
    (JSON.str n ∈ arrItems (getField (paramsPart (sigTool fn doc ps)) "required") ↔
      n ∈ ps.map PyParam.name) ∧
    (n ∈ sigRequiredVar ps ↔ ∃ p ∈ ps, p.name = n ∧ p.hasDefault = false) := by
  constructor
  · have he : arrItems (getField (paramsPart (sigTool fn doc ps)) "required") =
        (ps.map (fun p => (p.name, buildProp (parseDocstring doc).2 p))).map
          (fun kv => JSON.str kv.1) := rfl
    rw [he, List.map_map]
    simp [Function.comp, List.mem_map]
  · simp only [sigRequiredVar, List.mem_map, List.mem_filter]
    constructor
    · rintro ⟨p, ⟨hp, hd⟩, rfl⟩
      exact ⟨p, hp, rfl, by simpa using hd⟩
    · rintro ⟨p, hp, rfl, hd⟩
      exact ⟨p, ⟨hp, by simp [hd]⟩, rfl⟩

/-- C1 (counterexample): the well-formed tree
`{"type": "object", "properties": {}, "required": ["x"]}` normalizes to
a root object that keeps `"x"` in `required` although it names no
property: forcing appends missing names but never removes entries, so
the required set strictly exceeds the property key set. -/
theorem claim1_counterexample :
    wfSchema (JSON.obj [("type", JSON.str "object"),
      ("properties", JSON.obj []), ("required", JSON.arr [JSON.str "x"])]) = true ∧
    strictEqLocal (objFields (normalize (JSON.obj [("type", JSON.str "object"),
      ("properties", JSON.obj []),
      ("required", JSON.arr [JSON.str "x"])]))) = false := by decide

/-- C1 (amended): after normalizing a well-formed tree, every reachable
object node has `additionalProperties = false` and its `required` list
contains every property name — it may keep further pre-existing entries,
so set equality need not hold.  The parameters object of a descriptor
assembled by the signature-introspecting builder does satisfy the exact
set equality, its `required` being literally its property-name list. -/
theorem claim1_theorem :
    (∀ t, wfSchema t = true → strictOk (normalize t) = true) ∧
    (∀ (fn doc : String) (ps : List PyParam) (n : String),
      lookupKey (objFields (paramsPart (sigTool fn doc ps)))
        "additionalProperties" = some (JSON.bool false) ∧
      (JSON.str n ∈ arrElems (lookupKey (objFields (paramsPart (sigTool fn doc ps)))
          "required") ↔
        n ∈ objKeys (lookupKey (objFields (paramsPart (sigTool fn doc ps)))
          "properties"))) := by
  constructor
  · exact fun t h => strictOk_normalize h
  · intro fn doc ps n
    refine ⟨rfl, ?_⟩
    have h1 : arrElems (lookupKey (objFields (paramsPart (sigTool fn doc ps)))
          "required") =
        (ps.map (fun p => (p.name, buildProp (parseDocstring doc).2 p))).map
          (fun kv => JSON.str kv.1) := rfl
    have h2 : objKeys (lookupKey (objFields (paramsPart (sigTool fn doc ps)))
          "properties") =
        keysOf (ps.map (fun p => (p.name, buildProp (parseDocstring doc).2 p))) := rfl
    rw [h1, h2, keysOf, List.map_map, List.map_map]
    simp [Function.comp, List.mem_map]

/-- C1 (witness): a concrete well-formed object tree with one string
property. -/
theorem claim1_witness :
    wfSchema (JSON.obj [("type", JSON.str "object"), ("properties",
      JSON.obj [("a", JSON.obj [("type", JSON.str "string")])])]) = true ∧
    strictOk (normalize (JSON.obj [("type", JSON.str "object"), ("properties",
      JSON.obj [("a", JSON.obj [("type", JSON.str "string")])])])) = true :=
  ⟨by decide, claim1_theorem.1 (JSON.obj [("type", JSON.str "object"), ("properties",
      JSON.obj [("a", JSON.obj [("type", JSON.str "string")])])]) (by decide)⟩

/-- C2 (counterexample): the dict/list tree
`{"type": "object", "properties": {"type": "object"}}` — whose
properties container itself looks like an object node — is not
normalized idempotently: the first pass injects `additionalProperties`
and `required` into the properties container (the recursion visits it
like any schema dict), and the second pass then treats those injected
keys as property names and appends them to the root's `required`. -/
theorem claim2_counterexample :
    normalize (normalize (JSON.obj [("type", JSON.str "object"),
        ("properties", JSON.obj [("type", JSON.str "object")])])) ≠
      normalize (JSON.obj [("type", JSON.str "object"),
        ("properties", JSON.obj [("type", JSON.str "object")])]) := by decide

/-- C2 (amended): normalization is idempotent on trees that are
well-formed in the sense of `wfSchema`: at every reachable object node
`required` (if present) is a list and `properties` (if present) is a
dict not itself classified as an object — the counterexample shows the
latter restriction is necessary.  On such trees already-present required
names are not appended again and `additionalProperties` already `false`
is unchanged. -/
theorem claim2_theorem (t : JSON) (h : wfSchema t = true) :
    normalize (normalize t) = normalize t :=
  normalize_idem h

/-- C2 (witness): a nested well-formed tree with a pruned `title` key
and a pre-filled `required` list. -/
theorem claim2_witness :
    wfSchema (JSON.obj [("type", JSON.str "object"), ("title", JSON.str "T"),
      ("required", JSON.arr [JSON.str "b"]),
      ("properties", JSON.obj [("b", JSON.obj [("type", JSON.str "object"),
        ("properties", JSON.obj [("c", JSON.obj [("type",
          JSON.str "integer")])])])])]) = true ∧
    normalize (normalize (JSON.obj [("type", JSON.str "object"),
      ("title", JSON.str "T"), ("required", JSON.arr [JSON.str "b"]),
      ("properties", JSON.obj [("b", JSON.obj [("type", JSON.str "object"),
        ("properties", JSON.obj [("c", JSON.obj [("type",
          JSON.str "integer")])])])])])) =
      normalize (JSON.obj [("type", JSON.str "object"),
        ("title", JSON.str "T"), ("required", JSON.arr [JSON.str "b"]),
        ("properties", JSON.obj [("b", JSON.obj [("type", JSON.str "object"),
          ("properties", JSON.obj [("c", JSON.obj [("type",
            JSON.str "integer")])])])])]) :=
  ⟨by decide, claim2_theorem (JSON.obj [("type", JSON.str "object"),
      ("title", JSON.str "T"), ("required", JSON.arr [JSON.str "b"]),
      ("properties", JSON.obj [("b", JSON.obj [("type", JSON.str "object"),
        ("properties", JSON.obj [("c", JSON.obj [("type",
          JSON.str "integer")])])])])]) (by decide)⟩

/-- C8: the normalized tree of any input tree — in particular of every
well-formed one — contains no `default`, `title`, `examples` or `format`
key at any dict reachable through dict values and list items: pruning
removes them everywhere and forcing writes only `additionalProperties`
and `required`. -/
theorem claim8_theorem (t : JSON) :
    keysAvoid ["default", "title", "examples", "format"] (normalize t) = true :=
  keysAvoid_subset disallowedKeys _
    (by
      intro a ha
      simp only [List.mem_cons, List.not_mem_nil, or_false] at ha
      rcases ha with rfl | rfl | rfl | rfl <;> simp [disallowedKeys])
    _ (keysAvoid_normalize t)

/-- C10: the parameters tree of every descriptor assembled by
`build_strict_openai_schema` carries no `description` key at any
reachable node, whatever raw parameter-model schema the structured-model
extractor supplied: the pruning step deletes every per-field
description. -/
theorem claim10_theorem (n d : String) (r : JSON) :
    keysAvoid ["description"] (paramsPart (build_strict_openai_schema n d r)) =
      true := by
  have he : paramsPart (build_strict_openai_schema n d r) = normalize r := rfl
  rw [he]
  exact keysAvoid_subset disallowedKeys _
    (by
      intro a ha
      simp only [List.mem_cons, List.not_mem_nil, or_false] at ha
      subst ha
      simp [disallowedKeys])
    _ (keysAvoid_normalize r)

end Anno
